import Mathlib

/-!
# Verification of the webauthn-dosipas cryptographic subsystem

A shallow embedding, in Lean 4, of the deterministic cryptographic core of the
webauthn-dosipas repository:

* the ECDSA signature codec converting between the 64-byte IEEE P1363 format
  and the ASN.1 DER (TLV) format (`src/lib/crypto.ts`: `p1363ToDer`,
  `derToP1363`, `integerToDer`, `readDerInteger`, `padTo32`);
* base64url encoding/decoding (`base64urlEncode`, `base64urlDecode`) and the
  signing helpers built on them (`signPayload`);
* canonical JSON serialization (`canonicalJsonStringify`) and the RFC 7638
  JWK thumbprint (`jwkThumbprint`);
* the HKDF key-derivation pipeline (`deriveKeys`);
* the two-pass DOSIPAS issuance protocol (`function/src/dosipas.ts`:
  `issueDosipas`, with `signWithKms` from the KMS module).

`Uint8Array` values are modelled as `List Nat` (each element a byte value,
`< 256` where it matters); JavaScript strings as Lean `String` / `List Char`;
fallible operations as `Option`/`Except`; external collaborators (WebCrypto,
GCP KMS, the `dosipas-ts` ticket encoder) as abstract function parameters.
-/

namespace WebauthnDosipas

/-- A JS `Uint8Array` modelled as a list of byte values. -/
abbrev Bytes := List Nat

/-- Reading `a[i]` from a `Uint8Array`. In JS an out-of-range read yields
`undefined`; in the one code path below that can read out of range
(`derToP1363` / `readDerInteger`) the value only flows into a slice bound and
into the next offset, where `undefined` propagates as `NaN` and the
`slice` calls clamp it to an empty slice — exactly the behaviour obtained by
defaulting the read to `0`, since a `0` length also produces an empty slice
and the resulting offset is again past the end of the buffer. -/
def jsGetD (a : Bytes) (i : Nat) : Nat := a.getD i 0

/-- The leading-zero-stripping loop shared by `integerToDer` and
`readDerInteger`: `while (start < val.length - 1 && val[start] === 0) start++`
followed by `val.slice(start)` — drop leading zero bytes but always keep at
least the last byte. -/
def stripLeadingZeros : Bytes → Bytes
  | 0 :: b :: rest => stripLeadingZeros (b :: rest)
  | val => val

/-- `integerToDer` (crypto.ts:233): encode a big-endian unsigned integer as an
ASN.1 DER INTEGER.  Strips leading zeros (keeping at least one byte), prepends
a `0x00` byte when the high bit of the most-significant retained byte is set,
and emits tag `0x02`, a single length byte (`Uint8Array` element assignment
truncates mod 256), then the value bytes. -/
def integerToDer (val : Bytes) : Bytes :=
  let trimmed := stripLeadingZeros val
  let needsPad := (trimmed.headD 0).land 128 != 0
  let len := trimmed.length + (if needsPad then 1 else 0)
  2 :: (len % 256) :: (if needsPad then 0 :: trimmed else trimmed)

/-- The value bytes emitted by `integerToDer` (everything after the tag and
length byte). -/
def integerToDerBody (val : Bytes) : Bytes :=
  let trimmed := stripLeadingZeros val
  if (trimmed.headD 0).land 128 != 0 then 0 :: trimmed else trimmed

/-- `p1363ToDer` (crypto.ts:205): convert IEEE P1363 (`r‖s`, 64 bytes) to
ASN.1 DER: `SEQUENCE { INTEGER r, INTEGER s }` with tag `0x30` and a
single-byte sequence length. -/
def p1363ToDer (sig : Bytes) : Bytes :=
  let r := sig.take 32
  let s := (sig.drop 32).take 32
  let rDer := integerToDer r
  let sDer := integerToDer s
  let seqLen := rDer.length + sDer.length
  48 :: (seqLen % 256) :: (rDer ++ sDer)

/-- `readDerInteger` (crypto.ts:254): read a DER INTEGER at `offset`, taking
`der[offset+1]` as the length, slicing that many value bytes, and stripping
leading zero padding. No tag or bound checking is performed by the source. -/
def readDerInteger (der : Bytes) (offset : Nat) : Bytes :=
  let len := jsGetD der (offset + 1)
  let value := (der.drop (offset + 2)).take len
  stripLeadingZeros value

/-- `padTo32` (crypto.ts:265): left-pad a byte array to exactly 32 bytes; an
input of 32 or more bytes is silently truncated to its last 32 bytes
(`val.slice(val.length - 32)`). -/
def padTo32 (val : Bytes) : Bytes :=
  if 32 ≤ val.length then val.drop (val.length - 32)
  else List.replicate (32 - val.length) 0 ++ val

/-- `derToP1363` (crypto.ts:220): convert an ASN.1 DER ECDSA signature to
IEEE P1363 (`r‖s`, 64 bytes).  Walks `SEQUENCE { INTEGER r, INTEGER s }`
positionally; the tag bytes at positions 0 and 2 (and at the second integer's
offset) are never inspected. -/
def derToP1363 (der : Bytes) : Bytes :=
  let r := readDerInteger der 2
  let offset := 2 + (2 + jsGetD der 3)
  let s := readDerInteger der offset
  padTo32 r ++ padTo32 s

/-! ## Base64 / base64url (crypto.ts:282–295)

`base64urlEncode` is `btoa` followed by the global replacements `+ → -`,
`/ → _` and stripping of trailing `=`; `base64urlDecode` reverses the
replacements, re-pads with `=` to a multiple of 4, and runs `atob`
(modelled as a partial function returning `none` on characters outside the
base64 alphabet, as `atob` throws). -/

/-- The standard base64 alphabet used by `btoa`/`atob`. -/
def b64Alphabet : List Char :=
  "ABCDEFGHIJKLMNOPQRSTUVWXYZabcdefghijklmnopqrstuvwxyz0123456789+/".toList

/-- The base64 digit for a 6-bit value. -/
def b64Char (n : Nat) : Char := b64Alphabet.getD n 'A'

/-- The 6-bit value of a base64 digit, `none` for a non-alphabet character. -/
def b64Index (c : Char) : Option Nat := b64Alphabet.findIdx? (fun d => d == c)

/-- `btoa` on a binary string: encode 3-byte groups into 4 base64 digits,
padding a trailing 1- or 2-byte group with `=`. -/
def btoa : Bytes → List Char
  | a :: b :: c :: rest =>
    b64Char (a / 4) :: b64Char (a % 4 * 16 + b / 16) ::
      b64Char (b % 16 * 4 + c / 64) :: b64Char (c % 64) :: btoa rest
  | [a, b] => [b64Char (a / 4), b64Char (a % 4 * 16 + b / 16), b64Char (b % 16 * 4), '=']
  | [a] => [b64Char (a / 4), b64Char (a % 4 * 16), '=', '=']
  | [] => []

/-- The global replacement of `+` by `-` and of `/` by `_`, per character. -/
def b64ToUrlChar (c : Char) : Char :=
  if c = '+' then '-' else if c = '/' then '_' else c

/-- The reverse global replacement of `-` by `+` and of `_` by `/`. -/
def urlToB64Char (c : Char) : Char :=
  if c = '-' then '+' else if c = '_' then '/' else c

/-- The trailing-padding strip `replace` with pattern "=+$": remove all
trailing `=` characters. -/
def stripTrailingEq (s : List Char) : List Char :=
  (s.reverse.dropWhile (fun c => c == '=')).reverse

/-- `base64urlEncode` (crypto.ts:282). -/
def base64urlEncode (bytes : Bytes) : List Char :=
  stripTrailingEq ((btoa bytes).map b64ToUrlChar)

/-- `atob` (forgiving base64 decode): 4-digit groups produce 3 bytes; a final
group `xy==` produces 1 byte and `xyz=` produces 2; `=` anywhere else, a
character outside the alphabet, or a length not a multiple of 4 is an error. -/
def atob : List Char → Option Bytes
  | c1 :: c2 :: c3 :: c4 :: rest =>
    if c4 = '=' then
      if rest.isEmpty = false then none
      else if c3 = '=' then
        match b64Index c1, b64Index c2 with
        | some a, some b => some [a * 4 + b / 16]
        | _, _ => none
      else
        match b64Index c1, b64Index c2, b64Index c3 with
        | some a, some b, some c => some [a * 4 + b / 16, b % 16 * 16 + c / 4]
        | _, _, _ => none
    else
      match b64Index c1, b64Index c2, b64Index c3, b64Index c4, atob rest with
      | some a, some b, some c, some d, some tail =>
        some ((a * 4 + b / 16) :: (b % 16 * 16 + c / 4) :: (c % 4 * 64 + d) :: tail)
      | _, _, _, _, _ => none
  | [] => some []
  | _ => none

/-- `base64urlDecode` (crypto.ts:287). -/
def base64urlDecode (str : List Char) : Option Bytes :=
  let b64 := str.map urlToB64Char
  let pad := (4 - b64.length % 4) % 4
  let padded := b64 ++ List.replicate pad '='
  atob padded

/-! ## UTF-8 and hex encoding helpers (`TextEncoder`, `bytesToHex`) -/

/-- `TextEncoder` on one character: standard UTF-8 encoding of a Unicode
scalar value into 1–4 bytes. -/
def utf8EncodeChar (c : Char) : Bytes :=
  let n := c.toNat
  if n < 128 then [n]
  else if n < 2048 then [192 + n / 64, 128 + n % 64]
  else if n < 65536 then [224 + n / 4096, 128 + n / 64 % 64, 128 + n % 64]
  else [240 + n / 262144, 128 + n / 4096 % 64, 128 + n / 64 % 64, 128 + n % 64]

/-- `new TextEncoder().encode(s)`. -/
def utf8Encode (s : String) : Bytes := (s.data.map utf8EncodeChar).flatten

/-- One hex digit, lower case (JS `Number.prototype.toString(16)` digits). -/
def hexDigit (n : Nat) : Char := "0123456789abcdef".toList.getD n '0'

/-- `b.toString(16).padStart(2, "0")` for a byte value. -/
def byteToHex (b : Nat) : List Char := [hexDigit (b / 16 % 16), hexDigit (b % 16)]

/-- `bytesToHex` (crypto.ts:276). -/
def bytesToHex (bytes : Bytes) : String := String.mk (bytes.map byteToHex).flatten

/-! ## Canonical JSON (`canonicalJsonStringify`, crypto.ts:145)

A JSON value is modelled first-order; numbers are modelled as integers (the
claims only involve integral values, and JS serializes integral numbers in
decimal).  `JSON.stringify` with the key-sorting replacer serializes every
object with its keys in ascending string order and every array and scalar in
its natural form.  JS compares strings by their UTF-16 code units;
`charsLe` below compares the character lists of Lean strings, which agrees
with it on all basic-multilingual-plane strings.  `Array.prototype.sort` is
a stable comparison sort; it is modelled by a stable insertion sort, and
since a JS object's keys are unique, sorting the (key, serialized member)
pairs by key is exactly `Object.keys(value).sort()` followed by member
serialization. -/

inductive Json where
  | null : Json
  | bool : Bool → Json
  | num : Int → Json
  | str : String → Json
  | arr : List Json → Json
  | obj : List (String × Json) → Json

/-- JSON string escaping as performed by `JSON.stringify`. -/
def escapeJsonChar (c : Char) : List Char :=
  if c = '"' then ['\\', '"']
  else if c = '\\' then ['\\', '\\']
  else if c = Char.ofNat 8 then ['\\', 'b']
  else if c = Char.ofNat 9 then ['\\', 't']
  else if c = Char.ofNat 10 then ['\\', 'n']
  else if c = Char.ofNat 12 then ['\\', 'f']
  else if c = Char.ofNat 13 then ['\\', 'r']
  else if c.toNat < 32 then ['\\', 'u', '0', '0', hexDigit (c.toNat / 16), hexDigit (c.toNat % 16)]
  else [c]

/-- `JSON.stringify` of a string value. -/
def quoteJsonString (s : String) : String :=
  String.mk ('"' :: (s.data.map escapeJsonChar).flatten ++ ['"'])

/-- Lexicographic comparison of JS strings by their characters (the default
`Array.prototype.sort` comparator on the BMP). -/
def charsLe : List Char → List Char → Bool
  | [], _ => true
  | _ :: _, [] => false
  | a :: as, b :: bs => if a < b then true else if b < a then false else charsLe as bs

/-- Stable insertion of a (key, serialized member) pair into a key-sorted
list. -/
def insertPair (p : String × String) : List (String × String) → List (String × String)
  | [] => [p]
  | q :: t => if charsLe p.1.data q.1.data then p :: q :: t else q :: insertPair p t

/-- Stable sort of (key, serialized member) pairs by key — the model of
`Object.keys(value).sort()`. -/
def sortPairs : List (String × String) → List (String × String)
  | [] => []
  | p :: t => insertPair p (sortPairs t)

mutual

/-- `canonicalJsonStringify` (crypto.ts:145): `JSON.stringify` with a replacer
that recursively sorts every object's keys, so the same logical value always
serializes to the same bytes.  Arrays and scalars keep their natural
order/form. -/
def canonicalJsonStringify : Json → String
  | .null => "null"
  | .bool b => if b then "true" else "false"
  | .num n => toString n
  | .str s => quoteJsonString s
  | .arr xs => "[" ++ String.intercalate "," (canonicalJsonStringifyList xs) ++ "]"
  | .obj kvs =>
    let sorted := sortPairs (canonicalJsonStringifyEntries kvs)
    "\x7b" ++ String.intercalate "," (sorted.map (fun p => quoteJsonString p.1 ++ ":" ++ p.2)) ++ "\x7d"

/-- Serialization of an array's elements, in order. -/
def canonicalJsonStringifyList : List Json → List String
  | [] => []
  | x :: xs => canonicalJsonStringify x :: canonicalJsonStringifyList xs

/-- Serialization of an object's members: each key paired with the canonical
serialization of its value, in insertion order (sorted afterwards). -/
def canonicalJsonStringifyEntries : List (String × Json) → List (String × String)
  | [] => []
  | (k, v) :: t => (k, canonicalJsonStringify v) :: canonicalJsonStringifyEntries t

end

mutual

/-- Semantic equality of JSON values: equal scalars, element-wise equal
arrays, and objects equal as key→value maps regardless of member insertion
order (keys unique, as they are in a JS object). -/
inductive SemEq : Json → Json → Prop where
  | null : SemEq Json.null Json.null
  | bool (b : Bool) : SemEq (Json.bool b) (Json.bool b)
  | num (n : Int) : SemEq (Json.num n) (Json.num n)
  | str (s : String) : SemEq (Json.str s) (Json.str s)
  | arr {xs ys : List Json} : SemEqList xs ys → SemEq (Json.arr xs) (Json.arr ys)
  | obj {l1 l2 : List (String × Json)} : (l1.map Prod.fst).Nodup →
      SemEqEntries l1 l2 → SemEq (Json.obj l1) (Json.obj l2)

/-- Element-wise semantic equality of arrays. -/
inductive SemEqList : List Json → List Json → Prop where
  | nil : SemEqList [] []
  | cons {x y : Json} {xs ys : List Json} :
      SemEq x y → SemEqList xs ys → SemEqList (x :: xs) (y :: ys)

/-- Member lists denoting the same object: pointwise semantically equal
values under any reordering of the (key, value) members. -/
inductive SemEqEntries : List (String × Json) → List (String × Json) → Prop where
  | nil : SemEqEntries [] []
  | cons (k : String) {v w : Json} {t u : List (String × Json)} :
      SemEq v w → SemEqEntries t u → SemEqEntries ((k, v) :: t) ((k, w) :: u)
  | swap (k1 k2 : String) (v w : Json) {t u : List (String × Json)} :
      SemEqEntries t u →
      SemEqEntries ((k1, v) :: (k2, w) :: t) ((k2, w) :: (k1, v) :: u)
  | trans {l1 l2 l3 : List (String × Json)} :
      SemEqEntries l1 l2 → SemEqEntries l2 l3 → SemEqEntries l1 l3

end

/-! ## JWK thumbprint (`jwkThumbprint`, crypto.ts:298)

A `JsonWebKey` is an object; the thumbprint reads only its `crv`, `kty`, `x`
and `y` members, modelled as an association list with `Option`-valued lookup
(a missing member interpolates as the text `undefined`, as in the template
literal of the source).  SHA-256 is an external primitive, passed as a
function parameter. -/

/-- A JWK modelled as a member list (string-valued members suffice for EC
public keys). -/
abbrev Jwk := List (String × String)

/-- JS member access `jwk.name`. -/
def jwkLookup (jwk : Jwk) (name : String) : Option String := jwk.lookup name

/-- `JSON.stringify(member)` interpolated into the template literal:
a quoted JSON string, or the text `undefined` for a missing member. -/
def jwkMemberString : Option String → String
  | some s => quoteJsonString s
  | none => "undefined"

/-- The canonical RFC 7638 JSON object built by `jwkThumbprint`: exactly the
members `crv`, `kty`, `x`, `y`, in this fixed order. -/
def jwkCanonical (jwk : Jwk) : String :=
  "\x7b\"crv\":" ++ jwkMemberString (jwkLookup jwk "crv") ++
    ",\"kty\":" ++ jwkMemberString (jwkLookup jwk "kty") ++
    ",\"x\":" ++ jwkMemberString (jwkLookup jwk "x") ++
    ",\"y\":" ++ jwkMemberString (jwkLookup jwk "y") ++ "\x7d"

/-- `jwkThumbprint` (crypto.ts:298): SHA-256 over the UTF-8 bytes of the
canonical JWK JSON, base64url-encoded. -/
def jwkThumbprint (sha256 : Bytes → Bytes) (jwk : Jwk) : List Char :=
  base64urlEncode (sha256 (utf8Encode (jwkCanonical jwk)))

/-! ## Key derivation (`deriveKeys`, crypto.ts:55)

The WebCrypto primitives (SHA-256, HKDF, PKCS#8/JWK import and export) are
external collaborators, modelled as the fields of a `CryptoProvider`; opaque
`CryptoKey` handles are modelled as `Nat`.  The source performs no input
validation whatsoever: there is no length check on the PRF output, the
output bit count is hard-coded to 256, and no `DerivationError` (or any other
error) is ever raised on the derivation path. -/

/-- The relevant members of a `JsonWebKey` record for an EC key. -/
structure JsonWebKeyRecord where
  kty : Option String
  crv : Option String
  x : Option String
  y : Option String
deriving DecidableEq

/-- Abstract WebCrypto primitives used by `deriveKeys`. -/
structure CryptoProvider where
  sha256 : Bytes → Bytes
  hkdfDeriveKeyAesGcm256 : (salt : Bytes) → (info : Bytes) → (ikm : Bytes) → Nat
  hkdfDeriveBits : (salt : Bytes) → (info : Bytes) → (ikm : Bytes) → (bits : Nat) → Bytes
  importPkcs8EcdsaP256 : Bytes → Nat
  exportJwkOfKey : Nat → JsonWebKeyRecord
  importJwkEcdsaP256 : JsonWebKeyRecord → Nat

/-- The result record of `deriveKeys`. -/
structure DerivedKeys where
  aesKey : Nat
  ecdsaPrivateKey : Nat
  ecdsaPublicKey : Nat
  publicKeyJwk : JsonWebKeyRecord
  ecdsaScalarHex : String
deriving DecidableEq

/-- PKCS#8 DER prefix for an EC P-256 private key (crypto.ts:20). -/
def PKCS8_P256_PREFIX : Bytes :=
  [48, 65, 2, 1, 0, 48, 19, 6, 7, 42, 134, 72, 206, 61, 2, 1, 6, 8, 42, 134,
   72, 206, 61, 3, 1, 7, 4, 39, 48, 37, 2, 1, 1, 4, 32]

/-- The HKDF salt input string (crypto.ts:29). -/
def HKDF_SALT_INPUT : Bytes := utf8Encode "dosipas-hkdf-salt-v1"

/-- `getHkdfSalt` (crypto.ts:31): SHA-256 of the fixed salt input. -/
def getHkdfSalt (cp : CryptoProvider) : Bytes := cp.sha256 HKDF_SALT_INPUT

/-- `deriveKeys` (crypto.ts:55): HKDF-derive an AES-GCM-256 key and an ECDSA
P-256 key pair from the PRF output, with domain-separated info strings; the
ECDSA scalar is wrapped in a minimal PKCS#8 container and re-imported, and
the public JWK is restricted to its `kty`, `crv`, `x`, `y` members. -/
def deriveKeys (cp : CryptoProvider) (prfOutput : Bytes) : DerivedKeys :=
  let salt := getHkdfSalt cp
  let aesKey := cp.hkdfDeriveKeyAesGcm256 salt (utf8Encode "dosipas-aes-gcm") prfOutput
  let ecdsaScalar := cp.hkdfDeriveBits salt (utf8Encode "dosipas-ecdsa-p256") prfOutput 256
  let minimalDer := PKCS8_P256_PREFIX ++ ecdsaScalar
  let ecdsaPrivateKey := cp.importPkcs8EcdsaP256 minimalDer
  let jwkPrivate := cp.exportJwkOfKey ecdsaPrivateKey
  let publicKeyJwk : JsonWebKeyRecord :=
    { kty := jwkPrivate.kty, crv := jwkPrivate.crv, x := jwkPrivate.x, y := jwkPrivate.y }
  let ecdsaPublicKey := cp.importJwkEcdsaP256 publicKeyJwk
  { aesKey := aesKey
    ecdsaPrivateKey := ecdsaPrivateKey
    ecdsaPublicKey := ecdsaPublicKey
    publicKeyJwk := publicKeyJwk
    ecdsaScalarHex := bytesToHex ecdsaScalar }

/-- `signPayload` (crypto.ts:166) with the WebCrypto ECDSA signer abstracted:
sign the UTF-8 payload (the signer returns a P1363 signature), convert to DER
and base64url-encode. -/
def signPayload (sign : Bytes → Bytes) (payload : String) : List Char :=
  base64urlEncode (p1363ToDer (sign (utf8Encode payload)))

/-! ## Two-pass DOSIPAS issuance (`issueDosipas`, function/src/dosipas.ts)

The ticket encoder (`dosipas-ts`), the base64 decoding of the request's
level-2 key, SHA-256 and the GCP KMS signing RPC are external collaborators,
collected in `DosipasEnv`; the rail-ticket payload type is opaque.  `Except`
models a thrown error. -/

/-- OID for an EC key on the P-256 curve (dosipas.ts:10). -/
def EC_P256_KEY_ALG : String := "1.2.840.10045.3.1.7"

/-- OID for ECDSA with SHA-256 (dosipas.ts:12). -/
def ECDSA_SHA256_SIGNING_ALG : String := "1.2.840.10045.4.3.2"

/-- `UicBarcodeTicketInput` from `dosipas-ts`, over an opaque rail-ticket
type. -/
structure UicBarcodeTicketInput (RT : Type) where
  headerVersion : Nat
  fcbVersion : Nat
  securityProviderNum : Option Nat
  keyId : Option Nat
  level1KeyAlg : String
  level1SigningAlg : String
  level2KeyAlg : String
  level2SigningAlg : String
  level2PublicKey : Bytes
  railTicket : RT
  level1Signature : Option Bytes

/-- `IssueRequest` (dosipas.ts:14). -/
structure IssueRequest (RT : Type) where
  level2PublicKey : String
  level2KeyAlg : Option String
  level2SigningAlg : Option String
  securityProviderNum : Option Nat
  keyId : Option Nat
  headerVersion : Option Nat
  fcbVersion : Option Nat
  railTicket : RT

/-- `IssueResponse` (dosipas.ts:33). -/
structure IssueResponse where
  barcode : String
deriving DecidableEq

/-- External collaborators of the issuance function. -/
structure DosipasEnv (RT : Type) where
  bufferFromBase64 : String → Bytes
  encodeTicketToBytes : UicBarcodeTicketInput RT → Bytes
  encodeTicket : UicBarcodeTicketInput RT → String
  extractSignedDataLevel1 : Bytes → Bytes
  sha256 : Bytes → Bytes
  kmsAsymmetricSign : Bytes → Option Bytes

/-- `signWithKms` (kms.ts:25): pre-hash the data with SHA-256 and submit the
digest to the KMS HSM; error when KMS returns no signature. -/
def signWithKms {RT : Type} (env : DosipasEnv RT) (data : Bytes) : Except String Bytes :=
  let digest := env.sha256 data
  match env.kmsAsymmetricSign digest with
  | none => Except.error "KMS asymmetricSign returned no signature"
  | some signature => Except.ok signature

/-- The pass-1 placeholder: `new Uint8Array(72)` (dosipas.ts:66), a
deterministic all-zero array of the maximum DER ECDSA P-256 signature size. -/
def dummySignature : Bytes := List.replicate 72 0

/-- `baseInput` (dosipas.ts:52): every field of the ticket input except the
level-1 signature. -/
def baseInput {RT : Type} (env : DosipasEnv RT) (req : IssueRequest RT) :
    UicBarcodeTicketInput RT :=
  { headerVersion := req.headerVersion.getD 2
    fcbVersion := req.fcbVersion.getD 2
    securityProviderNum := req.securityProviderNum
    keyId := req.keyId
    level1KeyAlg := EC_P256_KEY_ALG
    level1SigningAlg := ECDSA_SHA256_SIGNING_ALG
    level2KeyAlg := req.level2KeyAlg.getD EC_P256_KEY_ALG
    level2SigningAlg := req.level2SigningAlg.getD ECDSA_SHA256_SIGNING_ALG
    level2PublicKey := env.bufferFromBase64 req.level2PublicKey
    railTicket := req.railTicket
    level1Signature := none }

/-- The pass-1 encoder input (dosipas.ts:67): the base input with the
placeholder signature in the signature slot. -/
def pass1Input {RT : Type} (env : DosipasEnv RT) (req : IssueRequest RT) :
    UicBarcodeTicketInput RT :=
  { baseInput env req with level1Signature := some dummySignature }

/-- The pass-2 encoder input (dosipas.ts:80): the base input with the real
signature in the signature slot. -/
def finalInput {RT : Type} (env : DosipasEnv RT) (req : IssueRequest RT)
    (level1Signature : Bytes) : UicBarcodeTicketInput RT :=
  { baseInput env req with level1Signature := some level1Signature }

/-- `issueDosipas` (dosipas.ts:47): two-pass encoding — encode with the
placeholder signature, extract the signed level-1 byte range, sign it via
KMS, and re-encode with the real signature over otherwise identical fields
(the source's local constants `pass1Input` and `finalInput` are hoisted to
the top-level definitions above). -/
def issueDosipas {RT : Type} (env : DosipasEnv RT) (req : IssueRequest RT) :
    Except String IssueResponse :=
  let pass1Bytes := env.encodeTicketToBytes (pass1Input env req)
  let level1DataBytes := env.extractSignedDataLevel1 pass1Bytes
  match signWithKms env level1DataBytes with
  | Except.error e => Except.error e
  | Except.ok level1Signature =>
    Except.ok { barcode := env.encodeTicket (finalInput env req level1Signature) }

/-- A degenerate provider used to evaluate the derivation pipeline on
concrete inputs. -/
def trivialProvider : CryptoProvider :=
  { sha256 := fun _ => []
    hkdfDeriveKeyAesGcm256 := fun _ _ _ => 0
    hkdfDeriveBits := fun _ _ _ _ => []
    importPkcs8EcdsaP256 := fun _ => 0
    exportJwkOfKey := fun _ =>
      { kty := some "EC", crv := some "P-256", x := some "x", y := some "y" }
    importJwkEcdsaP256 := fun _ => 0 }

/-- A degenerate environment used to evaluate the issuance pipeline on
concrete inputs. -/
def trivialDosipasEnv : DosipasEnv Nat :=
  { bufferFromBase64 := fun _ => []
    encodeTicketToBytes := fun _ => [1, 2, 3]
    encodeTicket := fun _ => "barcode"
    extractSignedDataLevel1 := fun b => b
    sha256 := fun b => b
    kmsAsymmetricSign := fun _ => some [9, 9] }

/-! ## Lemmas: the leading-zero strip -/

theorem stripLeadingZeros_zero_cons {t : Bytes} (h : t ≠ []) :
    stripLeadingZeros (0 :: t) = stripLeadingZeros t := by
  cases t with
  | nil => exact absurd rfl h
  | cons b r => rfl

theorem stripLeadingZeros_ne_nil {l : Bytes} (h : l ≠ []) : stripLeadingZeros l ≠ [] := by
  induction l with
  | nil => exact absurd rfl h
  | cons a t ih =>
    cases t with
    | nil => cases a <;> simp [stripLeadingZeros]
    | cons b r =>
      cases a with
      | zero => exact ih (by simp)
      | succ n => simp [stripLeadingZeros]

theorem stripLeadingZeros_length_le (l : Bytes) : (stripLeadingZeros l).length ≤ l.length := by
  induction l with
  | nil => simp [stripLeadingZeros]
  | cons a t ih =>
    cases t with
    | nil => cases a <;> simp [stripLeadingZeros]
    | cons b r =>
      cases a with
      | zero =>
        have : stripLeadingZeros (0 :: b :: r) = stripLeadingZeros (b :: r) := rfl
        rw [this]
        exact le_trans ih (by simp)
      | succ n => simp [stripLeadingZeros]

theorem stripLeadingZeros_append (l : Bytes) :
    List.replicate (l.length - (stripLeadingZeros l).length) 0 ++ stripLeadingZeros l = l := by
  induction l with
  | nil => rfl
  | cons a t ih =>
    cases t with
    | nil => cases a <;> simp [stripLeadingZeros]
    | cons b r =>
      cases a with
      | zero =>
        have h1 : stripLeadingZeros (0 :: b :: r) = stripLeadingZeros (b :: r) := rfl
        have h2 := stripLeadingZeros_length_le (b :: r)
        rw [h1]
        have h3 : (0 :: b :: r).length - (stripLeadingZeros (b :: r)).length =
            ((b :: r).length - (stripLeadingZeros (b :: r)).length) + 1 := by
          simp only [List.length_cons] at h2 ⊢
          omega
        rw [h3, List.replicate_succ]
        simpa using ih
      | succ n => simp [stripLeadingZeros]

theorem stripLeadingZeros_idem (l : Bytes) :
    stripLeadingZeros (stripLeadingZeros l) = stripLeadingZeros l := by
  induction l with
  | nil => rfl
  | cons a t ih =>
    cases t with
    | nil => cases a <;> simp [stripLeadingZeros]
    | cons b r =>
      cases a with
      | zero => exact ih
      | succ n => simp [stripLeadingZeros]

theorem stripLeadingZeros_head_zero {l t : Bytes} (h : stripLeadingZeros l = 0 :: t) :
    t = [] := by
  induction l with
  | nil => simp [stripLeadingZeros] at h
  | cons a t' ih =>
    cases t' with
    | nil =>
      cases a with
      | zero =>
        simp only [stripLeadingZeros, List.cons.injEq] at h
        exact h.2.symm
      | succ n => simp [stripLeadingZeros] at h
    | cons b r =>
      cases a with
      | zero => exact ih h
      | succ n => simp [stripLeadingZeros] at h

theorem stripLeadingZeros_all_zero {l : Bytes} (h : l ≠ []) (h0 : ∀ b ∈ l, b = 0) :
    stripLeadingZeros l = [0] := by
  induction l with
  | nil => exact absurd rfl h
  | cons a t ih =>
    have ha : a = 0 := h0 a (by simp)
    subst ha
    cases t with
    | nil => rfl
    | cons b r =>
      have : stripLeadingZeros (0 :: b :: r) = stripLeadingZeros (b :: r) := rfl
      rw [this]
      exact ih (by simp) (fun x hx => h0 x (by simp [hx]))

theorem mem_stripLeadingZeros {l : Bytes} {x : Nat} (h : x ∈ stripLeadingZeros l) : x ∈ l := by
  have happ := stripLeadingZeros_append l
  rw [← happ]
  exact List.mem_append_right _ h

/-! ## Lemmas: `integerToDer` -/

theorem integerToDer_eq (val : Bytes) :
    integerToDer val = 2 :: ((integerToDerBody val).length % 256) :: integerToDerBody val := by
  unfold integerToDer integerToDerBody
  by_cases hp : ((stripLeadingZeros val).headD 0).land 128 = 0
  · have hb : (((stripLeadingZeros val).headD 0).land 128 != 0) = false := by
      rw [hp]; rfl
    simp only [hb, Bool.false_eq_true, if_false, List.length_cons, Nat.add_zero]
  · have hb : (((stripLeadingZeros val).headD 0).land 128 != 0) = true :=
      bne_iff_ne.mpr hp
    simp only [hb, if_true, List.length_cons]

theorem integerToDerBody_length_le (val : Bytes) :
    (integerToDerBody val).length ≤ val.length + 1 := by
  unfold integerToDerBody
  have hs := stripLeadingZeros_length_le val
  by_cases hp : ((stripLeadingZeros val).headD 0).land 128 = 0
  · have hb : (((stripLeadingZeros val).headD 0).land 128 != 0) = false := by
      rw [hp]; rfl
    simp only [hb, Bool.false_eq_true, if_false]
    omega
  · have hb : (((stripLeadingZeros val).headD 0).land 128 != 0) = true :=
      bne_iff_ne.mpr hp
    simp only [hb, if_true, List.length_cons]
    omega

theorem integerToDerBody_ne_nil {val : Bytes} (h : val ≠ []) : integerToDerBody val ≠ [] := by
  unfold integerToDerBody
  by_cases hp : ((stripLeadingZeros val).headD 0).land 128 = 0
  · have hb : (((stripLeadingZeros val).headD 0).land 128 != 0) = false := by
      rw [hp]; rfl
    simp only [hb, Bool.false_eq_true, if_false]
    exact stripLeadingZeros_ne_nil h
  · have hb : (((stripLeadingZeros val).headD 0).land 128 != 0) = true :=
      bne_iff_ne.mpr hp
    simp only [hb, if_true]
    exact List.cons_ne_nil _ _

theorem strip_integerToDerBody (val : Bytes) :
    stripLeadingZeros (integerToDerBody val) = stripLeadingZeros val := by
  unfold integerToDerBody
  by_cases hp : ((stripLeadingZeros val).headD 0).land 128 = 0
  · have hb : (((stripLeadingZeros val).headD 0).land 128 != 0) = false := by
      rw [hp]; rfl
    simp only [hb, Bool.false_eq_true, if_false]
    exact stripLeadingZeros_idem val
  · have hb : (((stripLeadingZeros val).headD 0).land 128 != 0) = true :=
      bne_iff_ne.mpr hp
    simp only [hb, if_true]
    have hne : stripLeadingZeros val ≠ [] := by
      intro hnil
      rw [hnil] at hp
      exact hp rfl
    rw [stripLeadingZeros_zero_cons hne, stripLeadingZeros_idem]

theorem padTo32_strip {val : Bytes} (h : val.length = 32) :
    padTo32 (stripLeadingZeros val) = val := by
  have hle := stripLeadingZeros_length_le val
  have happ := stripLeadingZeros_append val
  unfold padTo32
  by_cases h32 : 32 ≤ (stripLeadingZeros val).length
  · have heq : (stripLeadingZeros val).length = 32 := by omega
    rw [if_pos h32, heq]
    simp only [Nat.sub_self, List.drop_zero]
    rw [h, heq] at happ
    simpa using happ
  · rw [if_neg h32]
    rw [h] at happ
    exact happ

/-! ## Lemmas: parsing `derToP1363` positionally -/

theorem readDerInteger_at (A : Bytes) (tagByte : Nat) (body rest : Bytes) :
    readDerInteger (A ++ tagByte :: body.length :: (body ++ rest)) A.length =
      stripLeadingZeros body := by
  have h1 : jsGetD (A ++ tagByte :: body.length :: (body ++ rest)) (A.length + 1) =
      body.length := by
    unfold jsGetD
    rw [List.getD_append_right _ _ _ _ (by omega)]
    simp
  have h2 : (A ++ tagByte :: body.length :: (body ++ rest)).drop (A.length + 2) =
      body ++ rest := by
    rw [List.drop_append 2]
    rfl
  show stripLeadingZeros
      (((A ++ tagByte :: body.length :: (body ++ rest)).drop (A.length + 2)).take
        (jsGetD (A ++ tagByte :: body.length :: (body ++ rest)) (A.length + 1))) = _
  rw [h1, h2, List.take_left]

theorem derToP1363_parse (x0 x1 x2 x3 : Nat) (rb sb extra : Bytes) :
    derToP1363 (x0 :: x1 :: x2 :: rb.length :: (rb ++ x3 :: sb.length :: (sb ++ extra))) =
      padTo32 (stripLeadingZeros rb) ++ padTo32 (stripLeadingZeros sb) := by
  have hr : readDerInteger (x0 :: x1 :: x2 :: rb.length :: (rb ++ x3 :: sb.length :: (sb ++ extra))) 2 =
      stripLeadingZeros rb := by
    have h := readDerInteger_at [x0, x1] x2 rb (x3 :: sb.length :: (sb ++ extra))
    simpa using h
  have hget : jsGetD (x0 :: x1 :: x2 :: rb.length :: (rb ++ x3 :: sb.length :: (sb ++ extra))) 3 =
      rb.length := by
    simp [jsGetD]
  have hs : readDerInteger (x0 :: x1 :: x2 :: rb.length :: (rb ++ x3 :: sb.length :: (sb ++ extra)))
      (2 + (2 + rb.length)) = stripLeadingZeros sb := by
    have h := readDerInteger_at (x0 :: x1 :: x2 :: rb.length :: rb) x3 sb extra
    have hlen : (x0 :: x1 :: x2 :: rb.length :: rb).length = 2 + (2 + rb.length) := by
      simp; omega
    rw [hlen] at h
    simpa using h
  show padTo32 (readDerInteger _ 2) ++ padTo32 (readDerInteger _ (2 + (2 + jsGetD _ 3))) = _
  rw [hr, hget, hs]

theorem p1363ToDer_eq (sig : Bytes) :
    p1363ToDer sig =
      48 :: (((integerToDerBody (sig.take 32)).length +
              (integerToDerBody ((sig.drop 32).take 32)).length + 4) % 256) ::
        2 :: ((integerToDerBody (sig.take 32)).length % 256) ::
          (integerToDerBody (sig.take 32) ++
            2 :: ((integerToDerBody ((sig.drop 32).take 32)).length % 256) ::
              integerToDerBody ((sig.drop 32).take 32)) := by
  show 48 :: ((integerToDer (sig.take 32)).length + (integerToDer ((sig.drop 32).take 32)).length) % 256 ::
      (integerToDer (sig.take 32) ++ integerToDer ((sig.drop 32).take 32)) = _
  rw [integerToDer_eq (sig.take 32), integerToDer_eq ((sig.drop 32).take 32)]
  simp only [List.length_cons, List.cons_append]
  congr 2
  omega

theorem padTo32_length (val : Bytes) : (padTo32 val).length = 32 := by
  unfold padTo32
  by_cases h : 32 ≤ val.length
  · rw [if_pos h]; simp; omega
  · rw [if_neg h]; simp; omega

/-! ## Claim theorems: the signature codec -/

/-- **C1.** For every 64-byte fixed-format signature `s`, converting to the
TLV encoding and back is the identity: `derToP1363 (p1363ToDer s) = s`
byte-for-byte — including when `r` or `s` has leading zero bytes, is
all-zero, or has its high bit set (no case split on the value is needed:
the proof covers all 64-byte inputs). -/
theorem derToP1363_p1363ToDer_roundtrip (sig : Bytes) (h : sig.length = 64) :
    derToP1363 (p1363ToDer sig) = sig := by
  have hrlen : (sig.take 32).length = 32 := by simp [h]
  have hslen : ((sig.drop 32).take 32).length = 32 := by simp [h]
  have hrb := integerToDerBody_length_le (sig.take 32)
  have hsb := integerToDerBody_length_le ((sig.drop 32).take 32)
  rw [hrlen] at hrb
  rw [hslen] at hsb
  rw [p1363ToDer_eq]
  rw [Nat.mod_eq_of_lt (a := (integerToDerBody (sig.take 32)).length) (by omega),
      Nat.mod_eq_of_lt (a := (integerToDerBody ((sig.drop 32).take 32)).length) (by omega)]
  have hparse := derToP1363_parse 48
      (((integerToDerBody (sig.take 32)).length +
        (integerToDerBody ((sig.drop 32).take 32)).length + 4) % 256) 2 2
      (integerToDerBody (sig.take 32)) (integerToDerBody ((sig.drop 32).take 32)) []
  rw [List.append_nil] at hparse
  rw [hparse, strip_integerToDerBody, strip_integerToDerBody,
      padTo32_strip hrlen, padTo32_strip hslen]
  have hdrop : (sig.drop 32).take 32 = sig.drop 32 :=
    List.take_of_length_le (by simp [h])
  rw [hdrop]
  exact List.take_append_drop 32 sig

/-- Witness for C1 at a concrete signature whose `r` has 31 leading zeros and
a high-bit-set last byte, and whose `s` is all-zero. -/
theorem derToP1363_p1363ToDer_roundtrip_witness :
    ((List.replicate 31 0 ++ [128]) ++ List.replicate 32 0).length = 64 ∧
      derToP1363 (p1363ToDer ((List.replicate 31 0 ++ [128]) ++ List.replicate 32 0)) =
        (List.replicate 31 0 ++ [128]) ++ List.replicate 32 0 :=
  ⟨by decide, derToP1363_p1363ToDer_roundtrip _ (by decide)⟩

/-- **C7 — counterexample.** The claim says `p1363ToDer` fails on every input
whose length is not 64 bytes; in fact the source performs no length check at
all: on the empty input and on a 1-byte input it succeeds, returning a
(meaningless but well-formed) DER encoding of the short slices. -/
theorem p1363ToDer_accepts_short_input :
    p1363ToDer [] = [48, 4, 2, 0, 2, 0] ∧
      p1363ToDer [255] = [48, 6, 2, 2, 0, 255, 2, 0] := by decide

/-- The full TLV structure of `p1363ToDer` output, for an input of any
length: a SEQUENCE byte, the sequence length, and two INTEGER TLVs whose
length bytes equal their value-byte counts (the mod-256 truncations vanish
because the value fields never exceed 33 bytes). -/
theorem p1363ToDer_structure (sig : Bytes) :
    p1363ToDer sig =
      48 :: ((integerToDerBody (sig.take 32)).length +
              (integerToDerBody ((sig.drop 32).take 32)).length + 4) ::
        ((2 :: (integerToDerBody (sig.take 32)).length :: integerToDerBody (sig.take 32)) ++
          (2 :: (integerToDerBody ((sig.drop 32).take 32)).length ::
            integerToDerBody ((sig.drop 32).take 32))) := by
  have h1 := integerToDerBody_length_le (sig.take 32)
  have h2 : (sig.take 32).length ≤ 32 := by simp
  have h3 := integerToDerBody_length_le ((sig.drop 32).take 32)
  have h4 : ((sig.drop 32).take 32).length ≤ 32 := by simp
  rw [p1363ToDer_eq]
  rw [Nat.mod_eq_of_lt (a := (integerToDerBody (sig.take 32)).length) (by omega),
      Nat.mod_eq_of_lt (a := (integerToDerBody ((sig.drop 32).take 32)).length) (by omega),
      Nat.mod_eq_of_lt (by omega)]
  simp

/-- **C7 — amended.** `p1363ToDer` never fails: for an input of any length
(64 bytes or not) it totally computes a SEQUENCE of two INTEGER TLVs from
whatever `r` and `s` slices the input yields, each with a single-byte length
equal to its value-byte count. -/
theorem p1363ToDer_total (sig : Bytes) :
    ∃ rb sb : Bytes, rb.length ≤ 33 ∧ sb.length ≤ 33 ∧
      p1363ToDer sig =
        48 :: (rb.length + sb.length + 4) ::
          ((2 :: rb.length :: rb) ++ (2 :: sb.length :: sb)) := by
  refine ⟨integerToDerBody (sig.take 32), integerToDerBody ((sig.drop 32).take 32), ?_, ?_,
    p1363ToDer_structure sig⟩
  · have h1 := integerToDerBody_length_le (sig.take 32)
    have h2 : (sig.take 32).length ≤ 32 := by simp
    omega
  · have h1 := integerToDerBody_length_le ((sig.drop 32).take 32)
    have h2 : ((sig.drop 32).take 32).length ≤ 32 := by simp
    omega

set_option maxRecDepth 8000 in
/-- The bit test on a byte value of the mask 128 is exactly the test
`128 ≤ b`. -/
theorem byte_land_128 : ∀ b : Nat, b < 256 → (Nat.land b 128 = 0 ↔ b < 128) := by decide

/-- The head of the stripped value is one of its members. -/
theorem headD_strip_mem {val : Bytes} (h : val ≠ []) :
    (stripLeadingZeros val).headD 0 ∈ stripLeadingZeros val := by
  have hne := stripLeadingZeros_ne_nil h
  cases hs : stripLeadingZeros val with
  | nil => exact absurd hs hne
  | cons c cs => simp

/-- Minimality of an emitted DER INTEGER: the value bytes are nonempty, a
leading zero byte occurs only as the single sign-disambiguation byte in front
of a byte with its high bit set (and exactly then), and an all-zero input is
encoded as the single byte `0x00`. -/
theorem integerToDerBody_minimal (val : Bytes) (hne : val ≠ []) (hb : ∀ b ∈ val, b < 256) :
    integerToDerBody val ≠ [] ∧
      (∀ b2 t, integerToDerBody val = 0 :: b2 :: t → 128 ≤ b2) ∧
      (128 ≤ (stripLeadingZeros val).headD 0 →
        integerToDerBody val = 0 :: stripLeadingZeros val) ∧
      ((∀ b ∈ val, b = 0) → integerToDerBody val = [0]) := by
  have hlt : (stripLeadingZeros val).headD 0 < 256 :=
    hb _ (mem_stripLeadingZeros (headD_strip_mem hne))
  refine ⟨integerToDerBody_ne_nil hne, ?_, ?_, ?_⟩
  · intro b2 t hbody
    by_cases hp : ((stripLeadingZeros val).headD 0).land 128 = 0
    · have hbf : (((stripLeadingZeros val).headD 0).land 128 != 0) = false := by
        rw [hp]; rfl
      unfold integerToDerBody at hbody
      simp only [hbf, Bool.false_eq_true, if_false] at hbody
      have ht := stripLeadingZeros_head_zero hbody
      exact absurd ht (by simp)
    · have hbt : (((stripLeadingZeros val).headD 0).land 128 != 0) = true :=
        bne_iff_ne.mpr hp
      unfold integerToDerBody at hbody
      simp only [hbt, if_true, List.cons.injEq, true_and] at hbody
      have hhead : (stripLeadingZeros val).headD 0 = b2 := by rw [hbody]; rfl
      rw [hhead] at hp hlt
      have h128 : ¬ b2 < 128 := fun hsmall => hp ((byte_land_128 b2 hlt).mpr hsmall)
      omega
  · intro hge
    have hp : ¬ ((stripLeadingZeros val).headD 0).land 128 = 0 := by
      intro h0
      have := (byte_land_128 _ hlt).mp h0
      omega
    have hbt : (((stripLeadingZeros val).headD 0).land 128 != 0) = true :=
      bne_iff_ne.mpr hp
    unfold integerToDerBody
    simp only [hbt, if_true]
  · intro h0
    have hs := stripLeadingZeros_all_zero hne h0
    unfold integerToDerBody
    rw [hs]
    rfl

/-- **C8.** For every 64-byte fixed-format input, each DER INTEGER emitted by
`p1363ToDer` (via `integerToDer`) is minimal: the value bytes carry a leading
zero byte only as the single mandated sign-disambiguation byte (prepended
exactly when the most-significant retained byte has its high bit set), and an
all-zero scalar is encoded as the single value byte `0x00`.  Stated for both
the `r` slice and the `s` slice of the signature. -/
theorem p1363ToDer_integer_minimality (sig : Bytes) (h : sig.length = 64)
    (hb : ∀ b ∈ sig, b < 256) :
    (integerToDer (sig.take 32) =
        2 :: ((integerToDerBody (sig.take 32)).length % 256) :: integerToDerBody (sig.take 32) ∧
      integerToDerBody (sig.take 32) ≠ [] ∧
      (∀ b2 t, integerToDerBody (sig.take 32) = 0 :: b2 :: t → 128 ≤ b2) ∧
      (128 ≤ (stripLeadingZeros (sig.take 32)).headD 0 →
        integerToDerBody (sig.take 32) = 0 :: stripLeadingZeros (sig.take 32)) ∧
      ((∀ b ∈ sig.take 32, b = 0) → integerToDerBody (sig.take 32) = [0])) ∧
    (integerToDer ((sig.drop 32).take 32) =
        2 :: ((integerToDerBody ((sig.drop 32).take 32)).length % 256) ::
          integerToDerBody ((sig.drop 32).take 32) ∧
      integerToDerBody ((sig.drop 32).take 32) ≠ [] ∧
      (∀ b2 t, integerToDerBody ((sig.drop 32).take 32) = 0 :: b2 :: t → 128 ≤ b2) ∧
      (128 ≤ (stripLeadingZeros ((sig.drop 32).take 32)).headD 0 →
        integerToDerBody ((sig.drop 32).take 32) =
          0 :: stripLeadingZeros ((sig.drop 32).take 32)) ∧
      ((∀ b ∈ (sig.drop 32).take 32, b = 0) →
        integerToDerBody ((sig.drop 32).take 32) = [0])) := by
  have hrne : sig.take 32 ≠ [] := by
    intro hc
    have := congrArg List.length hc
    simp [h] at this
  have hsne : (sig.drop 32).take 32 ≠ [] := by
    intro hc
    have := congrArg List.length hc
    simp [h] at this
  have hrb : ∀ b ∈ sig.take 32, b < 256 := fun b hm => hb b (List.take_subset _ _ hm)
  have hsb : ∀ b ∈ (sig.drop 32).take 32, b < 256 := fun b hm =>
    hb b (List.drop_subset _ _ (List.take_subset _ _ hm))
  have h1 := integerToDerBody_minimal (sig.take 32) hrne hrb
  have h2 := integerToDerBody_minimal ((sig.drop 32).take 32) hsne hsb
  exact ⟨⟨integerToDer_eq _, h1.1, h1.2.1, h1.2.2.1, h1.2.2.2⟩,
    ⟨integerToDer_eq _, h2.1, h2.2.1, h2.2.2.1, h2.2.2.2⟩⟩

/-- Witness for C8 at the all-zero 64-byte signature. -/
theorem p1363ToDer_integer_minimality_witness :
    (List.replicate 64 0 : Bytes).length = 64 ∧
      integerToDerBody ((List.replicate 64 0 : Bytes).take 32) = [0] :=
  ⟨by decide,
    ((p1363ToDer_integer_minimality (List.replicate 64 0) (by decide)
      (by decide)).1.2.2.2.2) (by decide)⟩

/-- The output of `derToP1363` is always exactly 64 bytes. -/
theorem derToP1363_length (der : Bytes) : (derToP1363 der).length = 64 := by
  show (padTo32 (readDerInteger der 2) ++
      padTo32 (readDerInteger der (2 + (2 + jsGetD der 3)))).length = 64
  rw [List.length_append, padTo32_length, padTo32_length]

/-- `derToP1363` never reads the outer SEQUENCE tag (position 0), the
sequence length byte (position 1) or the first INTEGER tag (position 2):
its output is invariant under arbitrary changes of the first three bytes. -/
theorem derToP1363_head_independent (x0 x1 x2 y0 y1 y2 : Nat) (rest : Bytes) :
    derToP1363 (x0 :: x1 :: x2 :: rest) = derToP1363 (y0 :: y1 :: y2 :: rest) := by
  have hread : ∀ z0 z1 z2 : Nat, ∀ n,
      readDerInteger (z0 :: z1 :: z2 :: rest) (n + 2) =
        stripLeadingZeros ((rest.drop (n + 1)).take (jsGetD rest n)) := by
    intro z0 z1 z2 n
    have hg : jsGetD (z0 :: z1 :: z2 :: rest) (n + 2 + 1) = jsGetD rest n := by
      simp [jsGetD]
    have hd : (z0 :: z1 :: z2 :: rest).drop (n + 2 + 2) = rest.drop (n + 1) := by
      rw [show n + 2 + 2 = 3 + (n + 1) by omega]
      calc (z0 :: z1 :: z2 :: rest).drop (3 + (n + 1))
          = ((z0 :: z1 :: z2 :: rest).drop 3).drop (n + 1) :=
            (List.drop_drop (n + 1) 3 (z0 :: z1 :: z2 :: rest)).symm
        _ = rest.drop (n + 1) := rfl
    show stripLeadingZeros
        (((z0 :: z1 :: z2 :: rest).drop (n + 2 + 2)).take
          (jsGetD (z0 :: z1 :: z2 :: rest) (n + 2 + 1))) = _
    rw [hg, hd]
  have hg3 : ∀ z0 z1 z2 : Nat, jsGetD (z0 :: z1 :: z2 :: rest) 3 = jsGetD rest 0 := by
    intro z0 z1 z2; simp [jsGetD]
  have h1 := hread x0 x1 x2 0
  have h1h := hread y0 y1 y2 0
  have h2 := hread x0 x1 x2 (2 + jsGetD rest 0)
  have h2h := hread y0 y1 y2 (2 + jsGetD rest 0)
  simp only [Nat.zero_add] at h1 h1h
  show padTo32 (readDerInteger (x0 :: x1 :: x2 :: rest) 2) ++
      padTo32 (readDerInteger (x0 :: x1 :: x2 :: rest)
        (2 + (2 + jsGetD (x0 :: x1 :: x2 :: rest) 3))) =
    padTo32 (readDerInteger (y0 :: y1 :: y2 :: rest) 2) ++
      padTo32 (readDerInteger (y0 :: y1 :: y2 :: rest)
        (2 + (2 + jsGetD (y0 :: y1 :: y2 :: rest) 3)))
  rw [hg3 x0 x1 x2, hg3 y0 y1 y2, Nat.add_comm 2 (2 + jsGetD rest 0), h1, h1h, h2, h2h]

/-- **C2 — counterexample.** The claim says the decoder fails with
`MalformedSignature` on a wrong outer tag, a wrong inner tag, lengths running
past the buffer, or an integer longer than 32 bytes.  In fact `derToP1363`
validates nothing: an outer tag `0x31` (SET), inner tags `0x03` (BIT STRING),
the empty buffer, and a 35-byte INTEGER are all decoded without error — the
overlong integer is silently truncated to its last 32 bytes. -/
theorem derToP1363_accepts_malformed :
    derToP1363 [49, 6, 2, 1, 5, 2, 1, 7] =
        (List.replicate 31 0 ++ [5]) ++ (List.replicate 31 0 ++ [7]) ∧
      derToP1363 [48, 6, 3, 1, 5, 3, 1, 7] =
        (List.replicate 31 0 ++ [5]) ++ (List.replicate 31 0 ++ [7]) ∧
      derToP1363 [] = List.replicate 64 0 ∧
      derToP1363 (48 :: 41 :: 2 :: 35 ::
          ((List.replicate 3 9 ++ List.replicate 32 8) ++ [2, 1, 7])) =
        List.replicate 32 8 ++ (List.replicate 31 0 ++ [7]) := by decide

/-- **C2 — amended.** `derToP1363` performs no validation at all: it is a
total function producing 64 bytes on every input, its result is independent
of the three tag-position bytes it never reads, and an integer whose value
field exceeds 32 bytes is silently truncated by `padTo32` to its last 32
bytes rather than rejected. -/
theorem derToP1363_no_validation (der : Bytes) (x0 x1 x2 y0 y1 y2 : Nat)
    (rest val : Bytes) :
    (derToP1363 der).length = 64 ∧
      derToP1363 (x0 :: x1 :: x2 :: rest) = derToP1363 (y0 :: y1 :: y2 :: rest) ∧
      (32 ≤ val.length → padTo32 val = val.drop (val.length - 32)) :=
  ⟨derToP1363_length der, derToP1363_head_independent x0 x1 x2 y0 y1 y2 rest,
    fun h32 => by unfold padTo32; rw [if_pos h32]⟩

/-- Witness for the amended C2, discharging the overlong-integer hypothesis
at a 33-byte value. -/
theorem derToP1363_no_validation_witness :
    (derToP1363 [11, 12]).length = 64 ∧
      derToP1363 [49, 6, 2, 1, 5, 2, 1, 7] = derToP1363 [48, 99, 3, 1, 5, 2, 1, 7] ∧
      padTo32 (List.replicate 33 7) = (List.replicate 33 7).drop 1 := by
  have h := derToP1363_no_validation [11, 12] 49 6 2 48 99 3 [1, 5, 2, 1, 7]
      (List.replicate 33 7)
  exact ⟨h.1, h.2.1, h.2.2 (by decide)⟩

/-- **C9.** For every 64-byte input, the DER signature produced by
`p1363ToDer` is between 8 and 72 bytes long — never exceeding the 72-byte
placeholder `issueDosipas` uses for pass 1 — its second byte equals the total
length minus 2 (a single-byte SEQUENCE length, always in the range 0–127),
and each inner INTEGER length byte equals the exact number of its value
bytes. -/
theorem p1363ToDer_length_bounds (sig : Bytes) (h : sig.length = 64) :
    8 ≤ (p1363ToDer sig).length ∧ (p1363ToDer sig).length ≤ 72 ∧
      (p1363ToDer sig).length ≤ dummySignature.length ∧
      jsGetD (p1363ToDer sig) 1 = (p1363ToDer sig).length - 2 ∧
      (p1363ToDer sig).length - 2 ≤ 127 ∧
      (∃ rb sb : Bytes,
        p1363ToDer sig = 48 :: (rb.length + sb.length + 4) ::
          ((2 :: rb.length :: rb) ++ (2 :: sb.length :: sb))) := by
  have hrne : sig.take 32 ≠ [] := by
    intro hc
    have := congrArg List.length hc
    simp [h] at this
  have hsne : (sig.drop 32).take 32 ≠ [] := by
    intro hc
    have := congrArg List.length hc
    simp [h] at this
  have hr33 : (integerToDerBody (sig.take 32)).length ≤ 33 := by
    have h1 := integerToDerBody_length_le (sig.take 32)
    have h2 : (sig.take 32).length ≤ 32 := by simp
    omega
  have hs33 : (integerToDerBody ((sig.drop 32).take 32)).length ≤ 33 := by
    have h1 := integerToDerBody_length_le ((sig.drop 32).take 32)
    have h2 : ((sig.drop 32).take 32).length ≤ 32 := by simp
    omega
  have hr1 : 1 ≤ (integerToDerBody (sig.take 32)).length :=
    List.length_pos.mpr (integerToDerBody_ne_nil hrne)
  have hs1 : 1 ≤ (integerToDerBody ((sig.drop 32).take 32)).length :=
    List.length_pos.mpr (integerToDerBody_ne_nil hsne)
  have heq := p1363ToDer_structure sig
  have hlen : (p1363ToDer sig).length =
      (integerToDerBody (sig.take 32)).length +
        (integerToDerBody ((sig.drop 32).take 32)).length + 6 := by
    rw [heq]
    simp
    omega
  refine ⟨by omega, by omega, ?_, ?_, by omega,
    ⟨integerToDerBody (sig.take 32), integerToDerBody ((sig.drop 32).take 32), heq⟩⟩
  · show (p1363ToDer sig).length ≤ (List.replicate 72 0 : Bytes).length
    simp only [List.length_replicate]
    omega
  · rw [heq]
    simp [jsGetD]
    omega

/-- Witness for C9 at a concrete maximal-size signature (both halves with the
high bit set, so both integers carry the sign byte and the DER output is the
full 72 bytes). -/
theorem p1363ToDer_length_bounds_witness :
    (List.replicate 64 255 : Bytes).length = 64 ∧
      (p1363ToDer (List.replicate 64 255)).length ≤ 72 :=
  ⟨by decide, (p1363ToDer_length_bounds (List.replicate 64 255) (by decide)).2.1⟩


/-! ## Lemmas: base64url round-trip -/

set_option maxRecDepth 16000 in
/-- Decoding inverts the digit table on all 64 six-bit values. -/
theorem b64Index_b64Char : ∀ n : Nat, n < 64 → b64Index (b64Char n) = some n := by decide

set_option maxRecDepth 16000 in
/-- Base64 digits are never `=`, and the url mapping on them never produces
`+`, `/` or `=`, and is inverted by the reverse mapping. -/
theorem b64Char_facts : ∀ n : Nat, n < 64 →
    b64Char n ≠ '=' ∧ b64ToUrlChar (b64Char n) ≠ '=' ∧
      b64ToUrlChar (b64Char n) ≠ '+' ∧ b64ToUrlChar (b64Char n) ≠ '/' ∧
      urlToB64Char (b64ToUrlChar (b64Char n)) = b64Char n := by decide

theorem atob_cons4 {c1 c2 c3 c4 : Char} {rest : List Char} (h4 : c4 ≠ '=')
    {a b c d : Nat} (h1 : b64Index c1 = some a) (h2 : b64Index c2 = some b)
    (h3 : b64Index c3 = some c) (hd4 : b64Index c4 = some d) :
    atob (c1 :: c2 :: c3 :: c4 :: rest) =
      (atob rest).map
        (fun tail => (a * 4 + b / 16) :: (b % 16 * 16 + c / 4) :: (c % 4 * 64 + d) :: tail) := by
  simp only [atob]
  rw [if_neg h4, h1, h2, h3, hd4]
  cases atob rest <;> rfl

theorem atob_pad2 {c1 c2 : Char} {a b : Nat}
    (h1 : b64Index c1 = some a) (h2 : b64Index c2 = some b) :
    atob [c1, c2, '=', '='] = some [a * 4 + b / 16] := by
  simp only [atob, if_true, List.isEmpty_nil, Bool.true_eq_false, if_false, h1, h2]

theorem atob_pad1 {c1 c2 c3 : Char} (h3ne : c3 ≠ '=') {a b c : Nat}
    (h1 : b64Index c1 = some a) (h2 : b64Index c2 = some b) (h3 : b64Index c3 = some c) :
    atob [c1, c2, c3, '='] = some [a * 4 + b / 16, b % 16 * 16 + c / 4] := by
  simp only [atob, if_true, List.isEmpty_nil, Bool.true_eq_false, if_false]
  rw [if_neg h3ne, h1, h2, h3]

/-- `atob` inverts `btoa` on every byte string. -/
theorem atob_btoa : ∀ bytes : Bytes, (∀ x ∈ bytes, x < 256) →
    atob (btoa bytes) = some bytes
  | [], _ => rfl
  | [a], hb => by
    have ha : a < 256 := hb a (by simp)
    simp only [btoa]
    rw [atob_pad2 (b64Index_b64Char (a / 4) (by omega))
      (b64Index_b64Char (a % 4 * 16) (by omega))]
    congr 2
    omega
  | [a, b], hb => by
    have ha : a < 256 := hb a (by simp)
    have hbb : b < 256 := hb b (by simp)
    simp only [btoa]
    rw [atob_pad1 ((b64Char_facts (b % 16 * 4) (by omega)).1)
      (b64Index_b64Char (a / 4) (by omega))
      (b64Index_b64Char (a % 4 * 16 + b / 16) (by omega))
      (b64Index_b64Char (b % 16 * 4) (by omega))]
    congr 1
    have e1 : a / 4 * 4 + (a % 4 * 16 + b / 16) / 16 = a := by omega
    have e2 : (a % 4 * 16 + b / 16) % 16 * 16 + b % 16 * 4 / 4 = b := by omega
    rw [e1, e2]
  | a :: b :: c :: d :: rest, hb => by
    have ha : a < 256 := hb a (by simp)
    have hbb : b < 256 := hb b (by simp)
    have hc : c < 256 := hb c (by simp)
    have ih := atob_btoa (d :: rest) (fun x hx => hb x (by simp at hx ⊢; tauto))
    simp only [btoa]
    rw [atob_cons4 ((b64Char_facts (c % 64) (by omega)).1)
      (b64Index_b64Char (a / 4) (by omega))
      (b64Index_b64Char (a % 4 * 16 + b / 16) (by omega))
      (b64Index_b64Char (b % 16 * 4 + c / 64) (by omega))
      (b64Index_b64Char (c % 64) (by omega))]
    rw [ih]
    simp only [Option.map_some']
    congr 1
    have e1 : a / 4 * 4 + (a % 4 * 16 + b / 16) / 16 = a := by omega
    have e2 : (a % 4 * 16 + b / 16) % 16 * 16 + (b % 16 * 4 + c / 64) / 4 = b := by omega
    have e3 : (b % 16 * 4 + c / 64) % 4 * 64 + c % 64 = c := by omega
    rw [e1, e2, e3]
  | [a, b, c], hb => by
    have ha : a < 256 := hb a (by simp)
    have hbb : b < 256 := hb b (by simp)
    have hc : c < 256 := hb c (by simp)
    simp only [btoa]
    rw [atob_cons4 ((b64Char_facts (c % 64) (by omega)).1)
      (b64Index_b64Char (a / 4) (by omega))
      (b64Index_b64Char (a % 4 * 16 + b / 16) (by omega))
      (b64Index_b64Char (b % 16 * 4 + c / 64) (by omega))
      (b64Index_b64Char (c % 64) (by omega))]
    rw [show atob ([] : List Char) = some [] from rfl, Option.map_some']
    congr 1
    have e1 : a / 4 * 4 + (a % 4 * 16 + b / 16) / 16 = a := by omega
    have e2 : (a % 4 * 16 + b / 16) % 16 * 16 + (b % 16 * 4 + c / 64) / 4 = b := by omega
    have e3 : (b % 16 * 4 + c / 64) % 4 * 64 + c % 64 = c := by omega
    rw [e1, e2, e3]

/-- Structure of `btoa` output: base64 digits followed by 0–2 padding `=`,
with total length a multiple of 4. -/
theorem btoa_decomp : ∀ bytes : Bytes, (∀ x ∈ bytes, x < 256) →
    ∃ body k, btoa bytes = body ++ List.replicate k '=' ∧
      (∀ ch ∈ body, ∃ n, n < 64 ∧ ch = b64Char n) ∧ k ≤ 2 ∧
      (body.length + k) % 4 = 0
  | [], _ => ⟨[], 0, rfl, by simp, by omega, by simp⟩
  | [a], hb => by
    have ha : a < 256 := hb a (by simp)
    exact ⟨[b64Char (a / 4), b64Char (a % 4 * 16)], 2, rfl,
      by
        intro ch hch
        simp at hch
        rcases hch with h | h
        · exact ⟨a / 4, by omega, h⟩
        · exact ⟨a % 4 * 16, by omega, h⟩,
      by omega, by simp⟩
  | [a, b], hb => by
    have ha : a < 256 := hb a (by simp)
    have hbb : b < 256 := hb b (by simp)
    exact ⟨[b64Char (a / 4), b64Char (a % 4 * 16 + b / 16), b64Char (b % 16 * 4)], 1, rfl,
      by
        intro ch hch
        simp at hch
        rcases hch with h | h | h
        · exact ⟨a / 4, by omega, h⟩
        · exact ⟨a % 4 * 16 + b / 16, by omega, h⟩
        · exact ⟨b % 16 * 4, by omega, h⟩,
      by omega, by simp⟩
  | a :: b :: c :: rest, hb => by
    have ha : a < 256 := hb a (by simp)
    have hbb : b < 256 := hb b (by simp)
    have hc : c < 256 := hb c (by simp)
    obtain ⟨body, k, hb1, hb2, hb3, hb4⟩ :=
      btoa_decomp rest (fun x hx => hb x (by simp [hx]))
    refine ⟨b64Char (a / 4) :: b64Char (a % 4 * 16 + b / 16) ::
      b64Char (b % 16 * 4 + c / 64) :: b64Char (c % 64) :: body, k, ?_, ?_, hb3, ?_⟩
    · simp only [btoa, hb1]
      rfl
    · intro ch hch
      simp only [List.mem_cons] at hch
      rcases hch with h | h | h | h | h
      · exact ⟨a / 4, by omega, h⟩
      · exact ⟨a % 4 * 16 + b / 16, by omega, h⟩
      · exact ⟨b % 16 * 4 + c / 64, by omega, h⟩
      · exact ⟨c % 64, by omega, h⟩
      · exact hb2 ch h
    · simp only [List.length_cons]
      omega

/-- Stripping trailing `=` undoes appending them, when the prefix has none. -/
theorem stripTrailingEq_append (l : List Char) (k : Nat) (h : ∀ ch ∈ l, ch ≠ '=') :
    stripTrailingEq (l ++ List.replicate k '=') = l := by
  unfold stripTrailingEq
  rw [List.reverse_append, List.reverse_replicate]
  have hdrop : List.dropWhile (fun c => c == '=') (List.replicate k '=' ++ l.reverse) =
      l.reverse := by
    induction k with
    | zero =>
      simp only [List.replicate_zero, List.nil_append]
      cases hrev : l.reverse with
      | nil => rfl
      | cons x xs =>
        have hx : x ∈ l := by
          have hxr : x ∈ l.reverse := by rw [hrev]; simp
          simpa using hxr
        rw [List.dropWhile_cons, if_neg (by simpa using h x hx)]
    | succ n ih =>
      rw [List.replicate_succ, List.cons_append, List.dropWhile_cons, if_pos (by simp)]
      exact ih
  rw [hdrop, List.reverse_reverse]

/-- The reverse url replacement undoes the forward one on base64 digits. -/
theorem map_url_inv {body : List Char} (h : ∀ ch ∈ body, ∃ n, n < 64 ∧ ch = b64Char n) :
    (body.map b64ToUrlChar).map urlToB64Char = body := by
  rw [List.map_map]
  have : ∀ ch ∈ body, (urlToB64Char ∘ b64ToUrlChar) ch = ch := by
    intro ch hch
    obtain ⟨n, hn, hch_eq⟩ := h ch hch
    subst hch_eq
    exact (b64Char_facts n hn).2.2.2.2
  calc body.map (urlToB64Char ∘ b64ToUrlChar) = body.map id := List.map_congr_left this
    _ = body := List.map_id body

/-- The encoded form equals the url-mapped digit body (padding stripped). -/
theorem base64urlEncode_eq_body {bytes : Bytes} {body : List Char} {k : Nat}
    (hb1 : btoa bytes = body ++ List.replicate k '=')
    (hb2 : ∀ ch ∈ body, ∃ n, n < 64 ∧ ch = b64Char n) :
    base64urlEncode bytes = body.map b64ToUrlChar := by
  unfold base64urlEncode
  rw [hb1, List.map_append, List.map_replicate]
  have hurl_eq : b64ToUrlChar '=' = '=' := rfl
  rw [hurl_eq]
  refine stripTrailingEq_append _ k ?_
  intro ch hch
  obtain ⟨c0, hc0, rfl, hn, hcb⟩ : ∃ c0, c0 ∈ body ∧ ch = b64ToUrlChar c0 ∧ True ∧ True := by
    obtain ⟨c0, hc0m, hc0e⟩ := List.mem_map.mp hch
    exact ⟨c0, hc0m, hc0e.symm, trivial, trivial⟩
  obtain ⟨n, hn64, rfl⟩ := hb2 c0 hc0
  exact (b64Char_facts n hn64).2.1

/-- Round-trip of the url-safe base64 codec on every byte string. -/
theorem base64urlDecode_base64urlEncode (bytes : Bytes) (hb : ∀ x ∈ bytes, x < 256) :
    base64urlDecode (base64urlEncode bytes) = some bytes := by
  obtain ⟨body, k, hb1, hb2, hb3, hb4⟩ := btoa_decomp bytes hb
  rw [base64urlEncode_eq_body hb1 hb2]
  show atob ((body.map b64ToUrlChar).map urlToB64Char ++
    List.replicate ((4 - ((body.map b64ToUrlChar).map urlToB64Char).length % 4) % 4) '=') =
      some bytes
  rw [map_url_inv hb2]
  have hpad : (4 - body.length % 4) % 4 = k := by omega
  rw [hpad, ← hb1]
  exact atob_btoa bytes hb


/-- Characters of `base64urlEncode` output are url-safe: never `+`, `/` or
`=`. -/
theorem base64urlEncode_charset (bytes : Bytes) (hb : ∀ x ∈ bytes, x < 256) :
    ∀ ch ∈ base64urlEncode bytes, ch ≠ '+' ∧ ch ≠ '/' ∧ ch ≠ '=' := by
  obtain ⟨body, k, hb1, hb2, hb3, hb4⟩ := btoa_decomp bytes hb
  rw [base64urlEncode_eq_body hb1 hb2]
  intro ch hch
  obtain ⟨c0, hc0m, hc0e⟩ := List.mem_map.mp hch
  obtain ⟨n, hn, rfl⟩ := hb2 c0 hc0m
  rw [← hc0e]
  exact ⟨(b64Char_facts n hn).2.2.1, (b64Char_facts n hn).2.2.2.1, (b64Char_facts n hn).2.1⟩

/-- Bytes of the emitted INTEGER value field are zero or come from the
input. -/
theorem mem_integerToDerBody {val : Bytes} {x : Nat} (h : x ∈ integerToDerBody val) :
    x = 0 ∨ x ∈ val := by
  unfold integerToDerBody at h
  by_cases hp : ((stripLeadingZeros val).headD 0).land 128 = 0
  · have hbf : (((stripLeadingZeros val).headD 0).land 128 != 0) = false := by
      rw [hp]; rfl
    simp only [hbf, Bool.false_eq_true, if_false] at h
    exact Or.inr (mem_stripLeadingZeros h)
  · have hbt : (((stripLeadingZeros val).headD 0).land 128 != 0) = true :=
      bne_iff_ne.mpr hp
    simp only [hbt, if_true, List.mem_cons] at h
    rcases h with h | h
    · exact Or.inl h
    · exact Or.inr (mem_stripLeadingZeros h)

/-- `p1363ToDer` maps byte strings to byte strings. -/
theorem p1363ToDer_bytes_lt {sig : Bytes} (hb : ∀ x ∈ sig, x < 256) :
    ∀ x ∈ p1363ToDer sig, x < 256 := by
  have hr33 : (integerToDerBody (sig.take 32)).length ≤ 33 := by
    have h1 := integerToDerBody_length_le (sig.take 32)
    have h2 : (sig.take 32).length ≤ 32 := by simp
    omega
  have hs33 : (integerToDerBody ((sig.drop 32).take 32)).length ≤ 33 := by
    have h1 := integerToDerBody_length_le ((sig.drop 32).take 32)
    have h2 : ((sig.drop 32).take 32).length ≤ 32 := by simp
    omega
  intro x hx
  rw [p1363ToDer_structure sig] at hx
  simp only [List.mem_cons, List.mem_append] at hx
  rcases hx with rfl | rfl | (rfl | rfl | hx) | (rfl | rfl | hx)
  · omega
  · omega
  · omega
  · omega
  · rcases mem_integerToDerBody hx with rfl | hmem
    · omega
    · exact hb x (List.take_subset _ _ hmem)
  · omega
  · omega
  · rcases mem_integerToDerBody hx with rfl | hmem
    · omega
    · exact hb x (List.drop_subset _ _ (List.take_subset _ _ hmem))

/-- **C10.** For every byte array `b`,
`base64urlDecode (base64urlEncode b) = b`, the output of `base64urlEncode`
never contains `+`, `/` or `=`, and hence a signature produced by
`signPayload` is recovered bit-identically by the decode step inside
`verifySignature` (the base64url decode applied to the encoded DER
signature). -/
theorem base64url_roundtrip :
    (∀ bytes : Bytes, (∀ x ∈ bytes, x < 256) →
        base64urlDecode (base64urlEncode bytes) = some bytes) ∧
      (∀ bytes : Bytes, (∀ x ∈ bytes, x < 256) →
        ∀ ch ∈ base64urlEncode bytes, ch ≠ '+' ∧ ch ≠ '/' ∧ ch ≠ '=') ∧
      (∀ (sign : Bytes → Bytes) (payload : String),
        (∀ x ∈ sign (utf8Encode payload), x < 256) →
          base64urlDecode (signPayload sign payload) =
            some (p1363ToDer (sign (utf8Encode payload)))) := by
  refine ⟨base64urlDecode_base64urlEncode, base64urlEncode_charset, ?_⟩
  intro sign payload hsign
  exact base64urlDecode_base64urlEncode _ (p1363ToDer_bytes_lt hsign)

/-- Witness for C10 at a concrete byte array exercising the `+` and `/`
positions of the base64 alphabet, and at a concrete signer. -/
theorem base64url_roundtrip_witness :
    base64urlDecode (base64urlEncode [0, 251, 62, 255]) = some [0, 251, 62, 255] ∧
      base64urlDecode (signPayload (fun _ => List.replicate 64 0) "msg") =
        some (p1363ToDer (List.replicate 64 0)) :=
  ⟨base64url_roundtrip.1 [0, 251, 62, 255] (by decide),
    base64url_roundtrip.2.2 (fun _ => List.replicate 64 0) "msg" (by decide)⟩


/-! ## Claim theorems: thumbprint, derivation, issuance -/

/-- **C5.** `jwkThumbprint` builds exactly the JSON object with the four
members `crv`, `kty`, `x`, `y` in this fixed order, hashes its UTF-8 bytes
with SHA-256 (abstract) and returns a url-safe base64 encoding with no
padding; the fingerprint reads only the four required members, so it is
invariant to member re-ordering and to extra optional members. -/
theorem jwkThumbprint_canonical :
    (∀ (sha256 : Bytes → Bytes) (jwk : Jwk),
        jwkThumbprint sha256 jwk =
          base64urlEncode (sha256 (utf8Encode
            ("\x7b\"crv\":" ++ jwkMemberString (jwkLookup jwk "crv") ++
              ",\"kty\":" ++ jwkMemberString (jwkLookup jwk "kty") ++
              ",\"x\":" ++ jwkMemberString (jwkLookup jwk "x") ++
              ",\"y\":" ++ jwkMemberString (jwkLookup jwk "y") ++ "\x7d")))) ∧
      (∀ (sha256 : Bytes → Bytes) (jwk1 jwk2 : Jwk),
        jwkLookup jwk1 "crv" = jwkLookup jwk2 "crv" →
        jwkLookup jwk1 "kty" = jwkLookup jwk2 "kty" →
        jwkLookup jwk1 "x" = jwkLookup jwk2 "x" →
        jwkLookup jwk1 "y" = jwkLookup jwk2 "y" →
        jwkThumbprint sha256 jwk1 = jwkThumbprint sha256 jwk2) ∧
      (∀ (sha256 : Bytes → Bytes) (jwk : Jwk),
        (∀ x ∈ sha256 (utf8Encode (jwkCanonical jwk)), x < 256) →
          '=' ∉ jwkThumbprint sha256 jwk) := by
  refine ⟨fun sha256 jwk => rfl, ?_, ?_⟩
  · intro sha256 jwk1 jwk2 h1 h2 h3 h4
    unfold jwkThumbprint jwkCanonical
    rw [h1, h2, h3, h4]
  · intro sha256 jwk hbytes hmem
    exact (base64urlEncode_charset _ hbytes '=' hmem).2.2 rfl

/-- Witness for C5: a minimal ordered JWK and a re-ordered JWK with an extra
member produce the same thumbprint, and a concrete thumbprint carries no
padding. -/
theorem jwkThumbprint_canonical_witness :
    jwkThumbprint (fun _ => [1, 2, 3]) [("kty", "EC"), ("crv", "P-256"), ("x", "AB"), ("y", "CD")] =
      jwkThumbprint (fun _ => [1, 2, 3])
        [("y", "CD"), ("x", "AB"), ("use", "sig"), ("crv", "P-256"), ("kty", "EC")] ∧
      '=' ∉ jwkThumbprint (fun _ => [1, 2, 3])
        [("kty", "EC"), ("crv", "P-256"), ("x", "AB"), ("y", "CD")] :=
  ⟨jwkThumbprint_canonical.2.1 (fun _ => [1, 2, 3]) _ _ (by decide) (by decide) (by decide)
      (by decide),
    jwkThumbprint_canonical.2.2 (fun _ => [1, 2, 3]) _ (by decide)⟩

/-- **C6 — counterexample.** The claim says `deriveKeys` fails with a
`DerivationError` for every secret that is not exactly 32 bytes; in fact no
`DerivationError` (or any validation) exists anywhere in the source: a
31-byte secret and a 33-byte secret both derive successfully. -/
theorem deriveKeys_accepts_wrong_length_secret :
    deriveKeys trivialProvider (List.replicate 31 0) =
        { aesKey := 0, ecdsaPrivateKey := 0, ecdsaPublicKey := 0,
          publicKeyJwk := { kty := some "EC", crv := some "P-256", x := some "x", y := some "y" },
          ecdsaScalarHex := "" } ∧
      deriveKeys trivialProvider (List.replicate 33 0) =
        { aesKey := 0, ecdsaPrivateKey := 0, ecdsaPublicKey := 0,
          publicKeyJwk := { kty := some "EC", crv := some "P-256", x := some "x", y := some "y" },
          ecdsaScalarHex := "" } := by decide

/-- **C6 — amended.** `deriveKeys` performs no input validation and has no
failure path: for every provider and every secret, of any length, it totally
computes the HKDF pipeline — fixed salt `SHA-256("dosipas-hkdf-salt-v1")`,
domain-separated info strings, a hard-coded 256-bit ECDSA scalar derivation,
the minimal PKCS#8 wrap, and the JWK restricted to `kty`/`crv`/`x`/`y`. -/
theorem deriveKeys_no_validation (cp : CryptoProvider) (secret : Bytes) :
    (deriveKeys cp secret).aesKey =
        cp.hkdfDeriveKeyAesGcm256 (getHkdfSalt cp) (utf8Encode "dosipas-aes-gcm") secret ∧
      (deriveKeys cp secret).ecdsaScalarHex =
        bytesToHex (cp.hkdfDeriveBits (getHkdfSalt cp)
          (utf8Encode "dosipas-ecdsa-p256") secret 256) ∧
      (deriveKeys cp secret).ecdsaPrivateKey =
        cp.importPkcs8EcdsaP256 (PKCS8_P256_PREFIX ++
          cp.hkdfDeriveBits (getHkdfSalt cp) (utf8Encode "dosipas-ecdsa-p256") secret 256) ∧
      (deriveKeys cp secret).publicKeyJwk =
        { kty := (cp.exportJwkOfKey ((deriveKeys cp secret).ecdsaPrivateKey)).kty
          crv := (cp.exportJwkOfKey ((deriveKeys cp secret).ecdsaPrivateKey)).crv
          x := (cp.exportJwkOfKey ((deriveKeys cp secret).ecdsaPrivateKey)).x
          y := (cp.exportJwkOfKey ((deriveKeys cp secret).ecdsaPrivateKey)).y } ∧
      (deriveKeys cp secret).ecdsaPublicKey =
        cp.importJwkEcdsaP256 (deriveKeys cp secret).publicKeyJwk :=
  ⟨rfl, rfl, rfl, rfl, rfl⟩

/-- **C3.** `issueDosipas` performs the two-pass protocol: pass 1 encodes the
ticket input with the deterministic placeholder `dummySignature` (72 zero
bytes — the maximum DER ECDSA P-256 signature size), the signed byte range is
extracted from the pass-1 bytes, exactly those extracted bytes are submitted
to `signWithKms` (which pre-hashes them with SHA-256 before the KMS call),
and the document is re-encoded with the real signature substituted into the
pass-1 input — every other encoder field identical between the two passes. -/
theorem issueDosipas_two_pass {RT : Type} (env : DosipasEnv RT) (req : IssueRequest RT)
    (sig : Bytes)
    (hkms : env.kmsAsymmetricSign (env.sha256 (env.extractSignedDataLevel1
      (env.encodeTicketToBytes (pass1Input env req)))) = some sig) :
    dummySignature = List.replicate 72 0 ∧
      dummySignature.length = 72 ∧
      pass1Input env req = { baseInput env req with level1Signature := some dummySignature } ∧
      signWithKms env (env.extractSignedDataLevel1
        (env.encodeTicketToBytes (pass1Input env req))) = Except.ok sig ∧
      finalInput env req sig = { pass1Input env req with level1Signature := some sig } ∧
      issueDosipas env req =
        Except.ok ⟨env.encodeTicket (finalInput env req sig)⟩ := by
  refine ⟨rfl, by decide, rfl, ?_, rfl, ?_⟩
  · simp only [signWithKms]
    rw [hkms]
  · simp only [issueDosipas, signWithKms]
    rw [hkms]

/-- Witness for C3 at a concrete environment and request. -/
theorem issueDosipas_two_pass_witness :
    issueDosipas trivialDosipasEnv
        { level2PublicKey := "AA", level2KeyAlg := none, level2SigningAlg := none,
          securityProviderNum := none, keyId := none, headerVersion := none,
          fcbVersion := none, railTicket := 0 } =
      Except.ok ⟨trivialDosipasEnv.encodeTicket (finalInput trivialDosipasEnv
        { level2PublicKey := "AA", level2KeyAlg := none, level2SigningAlg := none,
          securityProviderNum := none, keyId := none, headerVersion := none,
          fcbVersion := none, railTicket := 0 } [9, 9])⟩ :=
  (issueDosipas_two_pass trivialDosipasEnv
    { level2PublicKey := "AA", level2KeyAlg := none, level2SigningAlg := none,
      securityProviderNum := none, keyId := none, headerVersion := none,
      fcbVersion := none, railTicket := 0 } [9, 9] rfl).2.2.2.2.2

/-! ## Lemmas: canonical JSON serialization -/

theorem charsLe_total : ∀ x y : List Char, charsLe x y = true ∨ charsLe y x = true
  | [], _ => Or.inl rfl
  | _ :: _, [] => Or.inr rfl
  | a :: as, b :: bs => by
    by_cases hab : a < b
    · left; simp [charsLe, hab]
    · by_cases hba : b < a
      · right; simp [charsLe, hba]
      · rcases charsLe_total as bs with h | h
        · left; simp [charsLe, hab, hba, h]
        · right; simp [charsLe, hab, hba, h]

theorem charsLe_antisymm : ∀ x y : List Char,
    charsLe x y = true → charsLe y x = true → x = y
  | [], [], _, _ => rfl
  | [], _ :: _, _, h2 => by simp [charsLe] at h2
  | _ :: _, [], h1, _ => by simp [charsLe] at h1
  | a :: as, b :: bs, h1, h2 => by
    by_cases hab : a < b
    · have hba : ¬ b < a := lt_asymm hab
      simp [charsLe, hab, hba] at h2
    · by_cases hba : b < a
      · simp [charsLe, hab, hba] at h1
      · have hae : a = b := le_antisymm (not_lt.mp hba) (not_lt.mp hab)
        subst hae
        simp only [charsLe, lt_irrefl, if_false] at h1 h2
        rw [charsLe_antisymm as bs h1 h2]

theorem charsLe_trans : ∀ x y z : List Char,
    charsLe x y = true → charsLe y z = true → charsLe x z = true
  | [], _, _, _, _ => rfl
  | _ :: _, [], _, h1, _ => by simp [charsLe] at h1
  | _ :: _, _ :: _, [], _, h2 => by simp [charsLe] at h2
  | a :: as, b :: bs, c :: cs, h1, h2 => by
    by_cases hab : a < b
    · by_cases hbc : b < c
      · simp [charsLe, lt_trans hab hbc]
      · by_cases hcb : c < b
        · simp [charsLe, hbc, hcb] at h2
        · have hbe : b = c := le_antisymm (not_lt.mp hcb) (not_lt.mp hbc)
          subst hbe
          simp [charsLe, hab]
    · by_cases hba : b < a
      · simp [charsLe, hab, hba] at h1
      · have hae : a = b := le_antisymm (not_lt.mp hba) (not_lt.mp hab)
        subst hae
        simp only [charsLe, lt_irrefl, if_false] at h1
        by_cases hac : a < c
        · simp [charsLe, hac]
        · by_cases hca : c < a
          · simp [charsLe, hac, hca] at h2
          · have hce : a = c := le_antisymm (not_lt.mp hca) (not_lt.mp hac)
            subst hce
            simp only [charsLe, lt_irrefl, if_false] at h2 ⊢
            exact charsLe_trans as bs cs h1 h2

theorem insertPair_perm (p : String × String) :
    ∀ l, (insertPair p l).Perm (p :: l)
  | [] => List.Perm.refl _
  | q :: t => by
    simp only [insertPair]
    by_cases h : charsLe p.1.data q.1.data = true
    · rw [if_pos h]
    · rw [if_neg h]
      exact ((insertPair_perm p t).cons q).trans (List.Perm.swap p q t)

theorem sortPairs_perm : ∀ l, (sortPairs l).Perm l
  | [] => List.Perm.refl _
  | p :: t => by
    simp only [sortPairs]
    exact (insertPair_perm p (sortPairs t)).trans ((sortPairs_perm t).cons p)

theorem insertPair_sorted (p : String × String) :
    ∀ l, l.Pairwise (fun a b : String × String => charsLe a.1.data b.1.data = true) →
      (insertPair p l).Pairwise (fun a b => charsLe a.1.data b.1.data = true)
  | [], _ => by simp [insertPair]
  | q :: t, h => by
    rcases List.pairwise_cons.mp h with ⟨hq, ht⟩
    simp only [insertPair]
    by_cases hpq : charsLe p.1.data q.1.data = true
    · rw [if_pos hpq]
      refine List.pairwise_cons.mpr ⟨?_, h⟩
      intro r hr
      rcases List.mem_cons.mp hr with rfl | hrt
      · exact hpq
      · exact charsLe_trans _ _ _ hpq (hq r hrt)
    · rw [if_neg hpq]
      have hqp : charsLe q.1.data p.1.data = true := by
        rcases charsLe_total p.1.data q.1.data with h' | h'
        · exact absurd h' hpq
        · exact h'
      refine List.pairwise_cons.mpr ⟨?_, insertPair_sorted p t ht⟩
      intro r hr
      have hrm : r ∈ p :: t := (insertPair_perm p t).mem_iff.mp hr
      rcases List.mem_cons.mp hrm with rfl | hrt
      · exact hqp
      · exact hq r hrt

theorem sortPairs_sorted : ∀ l : List (String × String),
    (sortPairs l).Pairwise (fun a b => charsLe a.1.data b.1.data = true)
  | [] => List.Pairwise.nil
  | p :: t => by
    simp only [sortPairs]
    exact insertPair_sorted p (sortPairs t) (sortPairs_sorted t)

/-- Two key-sorted member lists that are permutations of each other, with
duplicate-free keys, are equal. -/
theorem sorted_perm_nodup_eq : ∀ l1 l2 : List (String × String), l1.Perm l2 →
    (l1.map Prod.fst).Nodup →
    l1.Pairwise (fun a b => charsLe a.1.data b.1.data = true) →
    l2.Pairwise (fun a b => charsLe a.1.data b.1.data = true) → l1 = l2
  | [], l2, hp, _, _, _ => (hp.symm.eq_nil).symm
  | p :: t1, l2, hp, hnd, hs1, hs2 => by
    cases l2 with
    | nil => exact absurd hp.eq_nil (by simp)
    | cons q t2 =>
      rcases List.pairwise_cons.mp hs1 with ⟨hp1, hs1t⟩
      rcases List.pairwise_cons.mp hs2 with ⟨hq2, hs2t⟩
      have hndc : p.1 ∉ t1.map Prod.fst ∧ (t1.map Prod.fst).Nodup := by
        rw [List.map_cons] at hnd
        exact List.nodup_cons.mp hnd
      have hpq : p = q := by
        have hpin : p ∈ q :: t2 := hp.mem_iff.mp (by simp)
        have hqin : q ∈ p :: t1 := hp.symm.mem_iff.mp (by simp)
        rcases List.mem_cons.mp hpin with h' | hpt2
        · exact h'
        rcases List.mem_cons.mp hqin with h' | hqt1
        · exact h'.symm
        have h1 : charsLe p.1.data q.1.data = true := hp1 q hqt1
        have h2 : charsLe q.1.data p.1.data = true := hq2 p hpt2
        have hkey : p.1 = q.1 := String.ext (charsLe_antisymm _ _ h1 h2)
        exfalso
        exact hndc.1 (hkey ▸ List.mem_map_of_mem Prod.fst hqt1)
      subst hpq
      rw [sorted_perm_nodup_eq t1 t2 hp.cons_inv hndc.2 hs1t hs2t]

/-- Serializing an object's members preserves the key sequence. -/
theorem stringifyEntries_keys : ∀ l : List (String × Json),
    (canonicalJsonStringifyEntries l).map Prod.fst = l.map Prod.fst
  | [] => rfl
  | (k, v) :: t => by
    simp only [canonicalJsonStringifyEntries, List.map_cons, stringifyEntries_keys t]

/-- Core congruence: semantically equal JSON values serialize identically —
proved by joint induction over the three mutual relations via the generated
recursor. -/
theorem semEq_stringify {a b : Json} (h : SemEq a b) :
    canonicalJsonStringify a = canonicalJsonStringify b := by
  refine @SemEq.rec
    (fun a b _ => canonicalJsonStringify a = canonicalJsonStringify b)
    (fun xs ys _ => canonicalJsonStringifyList xs = canonicalJsonStringifyList ys)
    (fun l1 l2 _ =>
      (canonicalJsonStringifyEntries l1).Perm (canonicalJsonStringifyEntries l2))
    rfl (fun _ => rfl) (fun _ => rfl) (fun _ => rfl)
    ?arrCase ?objCase rfl ?listConsCase (List.Perm.refl _) ?entConsCase ?entSwapCase
    ?entTransCase a b h
  case arrCase =>
    intro xs ys hl ih
    simp only [canonicalJsonStringify]
    rw [ih]
  case objCase =>
    intro l1 l2 hnd hent ih
    have hnd1 : ((sortPairs (canonicalJsonStringifyEntries l1)).map Prod.fst).Nodup := by
      have hpk := (sortPairs_perm (canonicalJsonStringifyEntries l1)).map Prod.fst
      rw [stringifyEntries_keys l1] at hpk
      exact hpk.nodup_iff.mpr hnd
    have heq : sortPairs (canonicalJsonStringifyEntries l1) =
        sortPairs (canonicalJsonStringifyEntries l2) :=
      sorted_perm_nodup_eq _ _
        ((sortPairs_perm _).trans (ih.trans (sortPairs_perm _).symm))
        hnd1 (sortPairs_sorted _) (sortPairs_sorted _)
    simp only [canonicalJsonStringify]
    rw [heq]
  case listConsCase =>
    intro x y xs ys hx hxs ih1 ih2
    simp only [canonicalJsonStringifyList]
    rw [ih1, ih2]
  case entConsCase =>
    intro k v w t u hv ht ih1 ih2
    simp only [canonicalJsonStringifyEntries]
    rw [ih1]
    exact ih2.cons _
  case entSwapCase =>
    intro k1 k2 v w t u ht ih
    simp only [canonicalJsonStringifyEntries]
    exact (List.Perm.swap _ _ _).trans ((ih.cons _).cons _)
  case entTransCase =>
    intro l1 l2 l3 h1 h2 ih1 ih2
    exact ih1.trans ih2

/-- **C4.** `canonicalJsonStringify` recursively sorts object keys before
serialization (arrays and scalars keep their natural order/form), so any two
semantically equal values — same keys and same values under any insertion
order, at any nesting depth — serialize to identical strings; in particular
the record `(b : 2, a : 1)` canonicalizes to the same bytes as
`(a : 1, b : 2)`. -/
theorem canonicalJsonStringify_canonical :
    (∀ a b : Json, SemEq a b → canonicalJsonStringify a = canonicalJsonStringify b) ∧
      canonicalJsonStringify (Json.obj [("b", Json.num 2), ("a", Json.num 1)]) =
        canonicalJsonStringify (Json.obj [("a", Json.num 1), ("b", Json.num 2)]) ∧
      canonicalJsonStringify (Json.obj [("b", Json.num 2), ("a", Json.num 1)]) =
        "\x7b\"a\":1,\"b\":2\x7d" :=
  ⟨fun _ _ h => semEq_stringify h, by decide, by decide⟩

/-- Witness for C4 at a nested reordering: the object keyed `x` containing
`(b : 2, a : 1)` serializes identically to the one containing
`(a : 1, b : 2)`. -/
theorem canonicalJsonStringify_canonical_witness :
    canonicalJsonStringify (Json.obj [("x", Json.obj [("b", Json.num 2), ("a", Json.num 1)])]) =
      canonicalJsonStringify (Json.obj [("x", Json.obj [("a", Json.num 1), ("b", Json.num 2)])]) :=
  canonicalJsonStringify_canonical.1 _ _
    (SemEq.obj (by decide)
      (SemEqEntries.cons "x"
        (SemEq.obj (by decide)
          (SemEqEntries.swap "b" "a" (Json.num 2) (Json.num 1) SemEqEntries.nil))
        SemEqEntries.nil))


end WebauthnDosipas
